import Mathlib

/-!
Verification of the review-parser repository (yandex_maps scraper).

The definitions below are a shallow embedding of the Python sources
src/review_parser/yandex_maps/scraper.py and src/review_parser/utils.py.
Browser effects are modelled by explicit oracles (a page is a function
from a round index to the list of raw items currently rendered; the
third-party lenient date parser dateutil.parser.parse is an explicit
function parameter, since it is an external library and not code of the
repository).  Python strings are modelled as Lean strings, Python ints
as Int, Python None through Option / an explicit PyVal type.  Digit and
word character classes are modelled over ASCII plus the Cyrillic block,
the alphabets occurring in the scraped strings and URL identifiers.
-/

set_option autoImplicit false
set_option maxRecDepth 10000

namespace ReviewParser

/-! ## Python string primitives -/

/-- Whitespace as recognised by Python str.strip and the regex class
backslash-s: ASCII whitespace plus the no-break spaces that occur in
scraped Russian text. -/
def pyIsSpace (c : Char) : Bool :=
  c = ' ' || c = '\t' || c = '\n' || c = '\x0d' || c = '\x0b' || c = '\x0c' ||
  c = '\u00A0' || c = '\u202F'

/-- Python str.strip (with no argument): drop whitespace from both ends. -/
def pyStrip (s : String) : String :=
  ⟨((s.data.dropWhile pyIsSpace).reverse.dropWhile pyIsSpace).reverse⟩

/-- Lowercasing of one character, covering ASCII and the Cyrillic range
used by the scraper (the only alphabets occurring in its string tables). -/
def lowerChar (c : Char) : Char :=
  if 'A' ≤ c ∧ c ≤ 'Z' then Char.ofNat (c.toNat + 32)
  else if 0x410 ≤ c.toNat ∧ c.toNat ≤ 0x42F then Char.ofNat (c.toNat + 0x20)
  else if c.toNat = 0x401 then Char.ofNat 0x451
  else c

/-- Python str.lower on the alphabets the scraper uses. -/
def pyLower (s : String) : String := ⟨s.data.map lowerChar⟩

/-- Substring test on character lists (Python "pat in hay"). -/
def listSub (p : List Char) : List Char → Bool
  | [] => p.isEmpty
  | c :: rest => p.isPrefixOf (c :: rest) || listSub p rest

/-- Python substring containment: containsSub hay pat is "pat in hay". -/
def containsSub (hay pat : String) : Bool := listSub pat.data hay.data

/-- Numeric value of a list of decimal digit characters (int of a match group). -/
def digitsToNat (l : List Char) : Nat :=
  l.foldl (fun a c => a * 10 + (c.toNat - 48)) 0

/-! ## Python values (arguments of the coercion helpers) -/

/-- The dynamic values that reach the field-coercion helpers: None, an int
or a string (the DOM extractor produces exactly these). -/
inductive PyVal where
  | none
  | int (n : Int)
  | str (s : String)
deriving DecidableEq, Repr

/-- Python str(v) for the values above. -/
def pyStr : PyVal → String
  | .none => "None"
  | .int n => toString n
  | .str s => s

/-! ## Rating coercion (scraper.py, _coerce_rating) -/

/-- Character class of the regex ([1-5]) used by _RE_RATING_INT. -/
def isRatingDigit (c : Char) : Bool := '1'.toNat ≤ c.toNat && c.toNat ≤ '5'.toNat

/-- Integer value of a digit character. -/
def digitVal (c : Char) : Int := (c.toNat : Int) - 48

/-- Model of _RE_RATING_INT.search(s) followed by int(m.group(1)) and the
final range check: the first character of class [1-5], if any. -/
def ratingSearch (s : String) : Option Int :=
  match s.data.find? isRatingDigit with
  | Option.none => Option.none
  | Option.some c =>
      let r := digitVal c
      if 1 ≤ r ∧ r ≤ 5 then Option.some r else Option.none

/-- Model of _coerce_rating from scraper.py.  It is a total function: the
source never raises (the regex search cannot fail, str() cannot fail). -/
def coerce_rating : PyVal → Option Int
  | .none => Option.none
  | .int n => if 1 ≤ n ∧ n ≤ 5 then Option.some n else ratingSearch (pyStr (.int n))
  | .str s => ratingSearch s

/-! ## Datetime model (Python datetime, date-only precision the scraper uses) -/

/-- Python datetime.datetime value.  The scraper only ever constructs
datetimes with a zero time component; the lenient fallback parser may
return any value. -/
structure PyDateTime where
  year : Int
  month : Int
  day : Int
  hour : Int
  minute : Int
  second : Int
deriving DecidableEq, Repr

/-- The datetime(year, mon, day) constructor call of _coerce_date: time
components are zero. -/
def mkDT (y m d : Nat) : PyDateTime := ⟨(y : Int), (m : Int), (d : Int), 0, 0, 0⟩

/-- Leap-year rule of the proleptic Gregorian calendar (Python datetime). -/
def isLeap (y : Nat) : Bool := y % 4 = 0 && (y % 100 ≠ 0 || y % 400 = 0)

/-- Number of days of a month (month assumed in 1..12). -/
def daysInMonth (y m : Nat) : Nat :=
  if m = 2 then (if isLeap y then 29 else 28)
  else if m = 4 ∨ m = 6 ∨ m = 9 ∨ m = 11 then 30
  else 31

/-- Whether datetime(y, m, d) succeeds (otherwise it raises ValueError). -/
def validYMD (y m d : Nat) : Bool :=
  1 ≤ y && y ≤ 9999 && 1 ≤ m && m ≤ 12 && 1 ≤ d && d ≤ daysInMonth y m

/-- datetime(now.year, now.month, now.day): strip the time component. -/
def dateOnly (d : PyDateTime) : PyDateTime := ⟨d.year, d.month, d.day, 0, 0, 0⟩

/-- Days since 1970-01-01 of a civil date (standard civil-from-days
algorithm, matching proleptic Gregorian datetime arithmetic). -/
def daysFromCivil (y m d : Int) : Int :=
  let y1 : Int := if m ≤ 2 then y - 1 else y
  let era : Int := (if 0 ≤ y1 then y1 else y1 - 399) / 400
  let yoe : Int := y1 - era * 400
  let mp : Int := (m + 9) % 12
  let doy : Int := (153 * mp + 2) / 5 + d - 1
  let doe : Int := yoe * 365 + yoe / 4 - yoe / 100 + doy
  era * 146097 + doe - 719468

/-- Civil date of a days-since-epoch count (inverse of daysFromCivil). -/
def civilFromDays (z0 : Int) : Int × Int × Int :=
  let z : Int := z0 + 719468
  let era : Int := (if 0 ≤ z then z else z - 146096) / 146097
  let doe : Int := z - era * 146097
  let yoe : Int := (doe - doe / 1460 + doe / 36524 - doe / 146096) / 365
  let y : Int := yoe + era * 400
  let doy : Int := doe - (365 * yoe + yoe / 4 - yoe / 100)
  let mp : Int := (5 * doy + 2) / 153
  let d : Int := doy - (153 * mp + 2) / 5 + 1
  let m : Int := mp + (if mp < 10 then 3 else -9)
  (y + (if m ≤ 2 then 1 else 0), m, d)

/-- Model of now - timedelta(days = n): the time component is untouched
because the delta is a whole number of days. -/
def subDaysDate (dt : PyDateTime) (n : Int) : PyDateTime :=
  let t := civilFromDays (daysFromCivil dt.year dt.month dt.day - n)
  ⟨t.1, t.2.1, t.2.2, dt.hour, dt.minute, dt.second⟩

/-! ## The Russian-date regex of _coerce_date

Model of re.search of the pattern
backslash-b (d 1-2) s+ ([a-ya-yo]+) (s+ (d 4))? backslash-b
applied to the lowercased string, together with the relative-date regex
backslash-b (d+) s+ (dn|dnya|dnej) s+ nazad backslash-b.
Backtracking collapses as follows: the digit and letter runs are maximal
runs (a shorter choice always places a run character where the next
mandatory token expects a different class), so the matcher below scans
left to right and at each word-boundary digit position checks the runs
directly. -/

/-- Regex class [a-ya-yo] of lowercase Cyrillic letters. -/
def isCyrLower (c : Char) : Bool :=
  (0x430 ≤ c.toNat && c.toNat ≤ 0x44F) || c.toNat = 0x451

/-- Python re word character (ASCII alphanumerics, underscore, and the
Cyrillic block, the alphabets occurring in the scraped strings). -/
def isWordChar (c : Char) : Bool :=
  c.isAlphanum || c = '_' || (0x400 ≤ c.toNat && c.toNat ≤ 0x4FF)

/-- Word boundary after a word-character run: next char absent or non-word. -/
def boundaryAfter : List Char → Bool
  | [] => true
  | c :: _ => !isWordChar c

/-- Model of the optional year group (s+ (d 4))? followed by the final
word boundary, applied after the month-name run.  Returns none when the
whole match fails at this position, some yOpt otherwise. -/
def matchYearOpt (l : List Char) : Option (Option Nat) :=
  let ws := l.takeWhile pyIsSpace
  if ws ≠ [] then
    let rest := l.drop ws.length
    let ds := rest.take 4
    if ds.length = 4 ∧ ds.all Char.isDigit ∧ boundaryAfter (rest.drop 4) then
      Option.some (Option.some (digitsToNat ds))
    else if boundaryAfter l then Option.some Option.none else Option.none
  else if boundaryAfter l then Option.some Option.none else Option.none

/-- Attempt of the date pattern at the current position with a day field of
exactly d digits (the regex tries d = 2 first, then d = 1). -/
def matchRuDay (d : Nat) (l : List Char) : Option (Nat × String × Option Nat) :=
  let ds := l.take d
  if ds.length = d ∧ ds.all Char.isDigit then
    let rest1 := l.drop d
    let ws := rest1.takeWhile pyIsSpace
    if ws ≠ [] then
      let rest2 := rest1.drop ws.length
      let mon := rest2.takeWhile isCyrLower
      if mon ≠ [] then
        match matchYearOpt (rest2.drop mon.length) with
        | Option.some yOpt => Option.some (digitsToNat ds, ⟨mon⟩, yOpt)
        | Option.none => Option.none
      else Option.none
    else Option.none
  else Option.none

/-- Attempt of the date pattern at the current position. -/
def matchRuAt (l : List Char) : Option (Nat × String × Option Nat) :=
  match matchRuDay 2 l with
  | Option.some r => Option.some r
  | Option.none => matchRuDay 1 l

/-- Left-to-right scan of re.search; the Bool argument records whether the
previous character is a word character (for the leading boundary). -/
def ruScan : List Char → Bool → Option (Nat × String × Option Nat)
  | [], _ => Option.none
  | c :: rest, prevW =>
    if !prevW && c.isDigit then
      match matchRuAt (c :: rest) with
      | Option.some r => Option.some r
      | Option.none => ruScan rest (isWordChar c)
    else ruScan rest (isWordChar c)

/-- Model of re.search of the day + Russian-month pattern on a string. -/
def ruDateSearch (s : String) : Option (Nat × String × Option Nat) :=
  ruScan s.data false

/-- One alternative of (dn|dnya|dnej) followed by s+, the literal nazad and
the closing word boundary. -/
def tryAgoUnit (u : List Char) (n : Nat) (l : List Char) : Option Nat :=
  if u.isPrefixOf l then
    let r := l.drop u.length
    let ws := r.takeWhile pyIsSpace
    if ws ≠ [] then
      let r2 := r.drop ws.length
      let nz : List Char := "назад".data
      if nz.isPrefixOf r2 ∧ boundaryAfter (r2.drop nz.length) then Option.some n
      else Option.none
    else Option.none
  else Option.none

/-- The unit alternation of the relative-date regex, tried in source order. -/
def matchAgoUnit (n : Nat) (l : List Char) : Option Nat :=
  match tryAgoUnit "дн".data n l with
  | Option.some r => Option.some r
  | Option.none =>
    match tryAgoUnit "дня".data n l with
    | Option.some r => Option.some r
    | Option.none => tryAgoUnit "дней".data n l

/-- Attempt of the relative-date pattern at the current position. -/
def matchAgoAt (l : List Char) : Option Nat :=
  let ds := l.takeWhile Char.isDigit
  if ds ≠ [] then
    let r1 := l.drop ds.length
    let ws := r1.takeWhile pyIsSpace
    if ws ≠ [] then matchAgoUnit (digitsToNat ds) (r1.drop ws.length)
    else Option.none
  else Option.none

/-- Left-to-right scan of re.search for the relative-date pattern. -/
def agoScan : List Char → Bool → Option Nat
  | [], _ => Option.none
  | c :: rest, prevW =>
    if !prevW && c.isDigit then
      match matchAgoAt (c :: rest) with
      | Option.some r => Option.some r
      | Option.none => agoScan rest (isWordChar c)
    else agoScan rest (isWordChar c)

/-- Model of re.search of the N-days-ago pattern on a string. -/
def daysAgoSearch (s : String) : Option Nat := agoScan s.data false

/-! ## Date coercion (scraper.py, _coerce_date) -/

/-- The fixed table of the twelve Russian month names (genitive). -/
def monthsRu : List (String × Nat) :=
  [("января", 1), ("февраля", 2), ("марта", 3), ("апреля", 4), ("мая", 5),
   ("июня", 6), ("июля", 7), ("августа", 8), ("сентября", 9),
   ("октября", 10), ("ноября", 11), ("декабря", 12)]

/-- Stage 1 of _coerce_date: the Russian day + month [+ year] branch.
Result none means the stage falls through to the later stages; result
some none means the stage returns None to the caller (the matched day is
in 1..31 but datetime raises ValueError); result some (some d) is a
successful parse. -/
def stage1 (low : String) (nowYear : Int) : Option (Option PyDateTime) :=
  match ruDateSearch low with
  | Option.none => Option.none
  | Option.some (day, monName, yOpt) =>
    match monthsRu.lookup monName with
    | Option.some mon =>
      if 1 ≤ day ∧ day ≤ 31 then
        let y : Nat := yOpt.getD nowYear.toNat
        if validYMD y mon day then Option.some (Option.some (mkDT y mon day))
        else Option.some Option.none
      else Option.none
    | Option.none => Option.none

/-- Stage 2 of _coerce_date: relative dates (today, yesterday, N days ago). -/
def stage2 (low : String) (now : PyDateTime) : Option PyDateTime :=
  if containsSub low "сегодня" then Option.some (dateOnly now)
  else if containsSub low "вчера" then Option.some (dateOnly (subDaysDate now 1))
  else
    match daysAgoSearch low with
    | Option.some n => Option.some (dateOnly (subDaysDate now (n : Int)))
    | Option.none => Option.none

/-- Tokens whose presence disables the implausible-year guard of stage 3. -/
def hasRelToken (low : String) : Bool :=
  containsSub low "сегодня" || containsSub low "вчера" ||
  containsSub low "дн" || containsSub low "нед"

/-- Stage 3 of _coerce_date: the dateutil fallback.  The external parser
dtparser.parse(s, dayfirst=True, fuzzy=True) is an oracle parameter fp;
fp returning none models the parser raising (caught, giving None). -/
def stage3 (fp : String → Option PyDateTime) (low s : String) : Option PyDateTime :=
  match fp s with
  | Option.none => Option.none
  | Option.some dt =>
    if dt.year < 1990 ∧ ¬hasRelToken low then Option.none else Option.some dt

/-- Stages 2 and 3 in sequence (the part of _coerce_date reached when
stage 1 falls through). -/
def stage23 (fp : String → Option PyDateTime) (now : PyDateTime)
    (low s : String) : Option PyDateTime :=
  match stage2 low now with
  | Option.some d => Option.some d
  | Option.none => stage3 fp low s

/-- Body of _coerce_date on a non-None value already converted to a string. -/
def coerceDateStr (fp : String → Option PyDateTime) (now : PyDateTime)
    (s0 : String) : Option PyDateTime :=
  let s := pyStrip s0
  if s = "" then Option.none
  else
    let low := pyLower s
    if containsSub low "отзыв" || containsSub low "по умолчанию" then Option.none
    else
      match stage1 low now.year with
      | Option.some r => r
      | Option.none => stage23 fp now low s

/-- Model of _coerce_date from scraper.py; fp is the dateutil oracle and
now the value of datetime.now(). -/
def coerce_date (fp : String → Option PyDateTime) (now : PyDateTime) :
    PyVal → Option PyDateTime
  | .none => Option.none
  | v => coerceDateStr fp now (pyStr v)

/-! ## Identifier extraction (utils.py, extract_org_id)

The regex _ORG_ID_RE is /(d 6+)/? (qmark or end).  With backtracking the
captured group is always a maximal digit run of length at least 6
preceded by a slash, whose end is followed by an optional slash and then
a question mark or the end of the string (any shorter capture leaves a
digit where the tail expects a slash, question mark or the end). -/

/-- Admissible continuation after the digit run: (slash)? then qmark or end. -/
def orgIdTermOk : List Char → Bool
  | [] => true
  | '?' :: _ => true
  | '/' :: rest =>
    match rest with
    | [] => true
    | '?' :: _ => true
    | _ => false
  | _ => false

/-- Scan of re.search for _ORG_ID_RE: at each slash, test the following
maximal digit run. -/
def orgIdScan : List Char → Option (List Char)
  | [] => Option.none
  | c :: rest =>
    if c = '/' then
      let run := rest.takeWhile Char.isDigit
      if 6 ≤ run.length ∧ orgIdTermOk (rest.drop run.length) then Option.some run
      else orgIdScan rest
    else orgIdScan rest

/-- Model of _ORG_ID_RE.search(url) returning the captured digit group. -/
def orgIdSearch (s : String) : Option String :=
  (orgIdScan s.data).map (fun l => ⟨l⟩)

/-- Scheme characters of urllib.parse (letters, digits, plus, minus, dot). -/
def isSchemeChar (c : Char) : Bool :=
  c.isAlphanum || c = '+' || c = '-' || c = '.'

/-- Span of the netloc: everything up to the first slash, question mark or
hash after the leading double slash. -/
def isNetlocEnd (c : Char) : Bool := c = '/' || c = '?' || c = '#'

/-- Characters before the first occurrence of c (the whole list if absent). -/
def takeUntilChar (c : Char) (l : List Char) : List Char :=
  l.takeWhile (fun x => x ≠ c)

/-- Model of the path component of urllib.parse.urlparse (CPython).  The
unsafe bytes tab, CR and LF are removed, leading and trailing controls
and spaces stripped, then scheme, netloc, fragment and query are split
off in source order.  A netloc with an unmatched square bracket raises
ValueError, modelled as the error case. -/
def urlsplitPathE (url : String) : Except Unit String := Id.run do
  let u0 := url.data.filter (fun c => ¬(c = '\t' ∨ c = '\x0d' ∨ c = '\n'))
  let u1 := (u0.dropWhile (fun c => c.toNat ≤ 0x20)).reverse.dropWhile
      (fun c => c.toNat ≤ 0x20) |>.reverse
  let u2 :=
    match u1.findIdx? (fun c => c = ':') with
    | Option.some i =>
      if 0 < i ∧ (u1.headD ' ').isAlpha ∧ (u1.take i).all isSchemeChar then
        u1.drop (i + 1)
      else u1
    | Option.none => u1
  match u2 with
  | '/' :: '/' :: t =>
    let netloc := t.takeWhile (fun c => ¬isNetlocEnd c)
    if ('[' ∈ netloc ∧ ']' ∉ netloc) ∨ (']' ∈ netloc ∧ '[' ∉ netloc) then
      return Except.error ()
    else
      let r1 := t.drop netloc.length
      let r2 := takeUntilChar '#' r1
      return Except.ok ⟨takeUntilChar '?' r2⟩
  | _ =>
    let r2 := takeUntilChar '#' u2
    return Except.ok ⟨takeUntilChar '?' r2⟩

/-- Python path.rstrip(slash). -/
def rstripSlash (s : String) : String :=
  ⟨(s.data.reverse.dropWhile (fun c => c = '/')).reverse⟩

/-- Python path.split(slash)[-1]: the characters after the last slash. -/
def lastSegment (s : String) : String :=
  ⟨(s.data.reverse.takeWhile (fun c => c ≠ '/')).reverse⟩

/-- The fallback branch of extract_org_id: last path segment if it is all
digits; any urlparse failure is caught and gives none. -/
def pathFallback (u : String) : Option String :=
  match urlsplitPathE u with
  | Except.error _ => Option.none
  | Except.ok path =>
    let last := lastSegment (rstripSlash path)
    if last ≠ "" ∧ last.data.all Char.isDigit then Option.some last
    else Option.none

/-- Model of extract_org_id from utils.py. -/
def extract_org_id (u : String) : Option String :=
  match orgIdSearch u with
  | Option.some d => Option.some d
  | Option.none => pathFallback u

/-- Model of normalize_url from utils.py. -/
def normalize_url (u : String) : String := pyStrip u

/-! ## Raw extracted items and the incremental collector
(scraper.py, _collect_reviews_while_scrolling) -/

/-- A raw extracted item: the four fields produced per review node by
_extract_reviews_dom (author, rating, date_text, text). -/
structure RawItem where
  author : Option String
  date_text : Option String
  rating : Option Int
  text : Option String
deriving DecidableEq, Repr

/-- Python f-string formatting of the raw rating field (None or an int). -/
def fmtOptInt : Option Int → String
  | Option.none => "None"
  | Option.some n => toString n

/-- The dedup key of the collector: a single string joining the stripped
author, stripped date text, raw rating and stripped body with pipes. -/
def itemKey (it : RawItem) : String :=
  pyStrip (it.author.getD "") ++ "|" ++ pyStrip (it.date_text.getD "") ++ "|" ++
  fmtOptInt it.rating ++ "|" ++ pyStrip (it.text.getD "")

/-- Whether the optional cap is reached by a list of the given length. -/
def limitReached : Option Nat → Nat → Bool
  | Option.none, _ => false
  | Option.some l, n => l ≤ n

/-- Python out[:limit]. -/
def takeLimit : Option Nat → List RawItem → List RawItem
  | Option.none, l => l
  | Option.some n, l => l.take n

/-- The merge step of one round: fold the extracted items into the
accumulator, skipping keys already seen; inl is the early return
out[:limit] when the cap is reached, inr carries the new accumulator,
seen set and the count of new unique items. -/
def mergeItems (limit : Option Nat) :
    List RawItem → List RawItem → List String → Nat →
    (List RawItem) ⊕ (List RawItem × List String × Nat)
  | [], out, seen, n => Sum.inr (out, seen, n)
  | it :: rest, out, seen, n =>
    let key := itemKey it
    if key ∈ seen then mergeItems limit rest out seen n
    else
      let out1 := out ++ [it]
      if limitReached limit out1.length then Sum.inl (takeLimit limit out1)
      else mergeItems limit rest out1 (key :: seen) (n + 1)

/-- Which return statement of _collect_reviews_while_scrolling produced the
result: the cap early-return, the stable-rounds return, or the fall-off
after the 260-iteration safety cap. -/
inductive ExitKind where
  | capped
  | stable
  | ceiling
deriving DecidableEq, Repr

/-- Result of the collector: the accumulated items, the return site and
the number of rounds executed. -/
structure CollectResult where
  out : List RawItem
  exit : ExitKind
  rounds : Nat
deriving DecidableEq, Repr

/-- The collection loop.  page gives the items rendered in the DOM at each
round (the page oracle); i is the current round index, fuel the remaining
iterations of range(260), then the accumulator, seen set and the count of
consecutive zero-new rounds. -/
def collectAux (page : Nat → List RawItem) (limit : Option Nat) :
    Nat → Nat → List RawItem → List String → Nat → CollectResult
  | i, 0, out, _, _ => ⟨out, ExitKind.ceiling, i⟩
  | i, fuel + 1, out, seen, stable =>
    match mergeItems limit (page i) out seen 0 with
    | Sum.inl res => ⟨res, ExitKind.capped, i + 1⟩
    | Sum.inr (out1, seen1, newCnt) =>
      let stable1 := if newCnt = 0 then stable + 1 else 0
      if 20 ≤ stable1 then ⟨out1, ExitKind.stable, i + 1⟩
      else collectAux page limit (i + 1) fuel out1 seen1 stable1

/-- Model of _collect_reviews_while_scrolling. -/
def collectReviews (page : Nat → List RawItem) (limit : Option Nat) :
    CollectResult :=
  collectAux page limit 0 260 [] [] 0

/-! ## Record assembly and the final deduplication pass (scraper.py,
_to_review, _coerce_str and the tail of scrape_reviews) -/

/-- The Review record (models.Review restricted to the fields the scraper
fills; likes and dislikes are never set by this scraper). -/
structure Review where
  org_id : Option String
  org_url : String
  author : Option String
  rating : Option Int
  date : Option PyDateTime
  text : Option String
  raw : RawItem
deriving DecidableEq, Repr

/-- Model of _coerce_str: strip, then None when empty. -/
def coerce_str : Option String → Option String
  | Option.none => Option.none
  | Option.some s => let t := pyStrip s; if t = "" then Option.none else Option.some t

/-- Lift of the optional DOM fields to PyVal arguments. -/
def optIntVal : Option Int → PyVal
  | Option.none => PyVal.none
  | Option.some n => PyVal.int n

/-- Lift of the optional DOM string fields to PyVal arguments. -/
def optStrVal : Option String → PyVal
  | Option.none => PyVal.none
  | Option.some s => PyVal.str s

/-- Model of _to_review. -/
def toReview (url : String) (oid : Option String)
    (fp : String → Option PyDateTime) (now : PyDateTime) (it : RawItem) : Review :=
  ⟨oid, url, coerce_str it.author, coerce_rating (optIntVal it.rating),
   coerce_date fp now (optStrVal it.date_text), coerce_str it.text, it⟩

/-- Left padding of a number with zeros. -/
def padNum (width : Nat) (n : Int) : String :=
  let s := toString n.toNat
  ⟨List.replicate (width - s.length) '0'⟩ ++ s

/-- Python str(datetime): ISO date, space, time. -/
def fmtPyDateTime (d : PyDateTime) : String :=
  padNum 4 d.year ++ "-" ++ padNum 2 d.month ++ "-" ++ padNum 2 d.day ++ " " ++
  padNum 2 d.hour ++ ":" ++ padNum 2 d.minute ++ ":" ++ padNum 2 d.second

/-- Python f-string formatting of the optional review fields. -/
def fmtOptStr : Option String → String
  | Option.none => "None"
  | Option.some s => s

/-- Python f-string formatting of the optional date field. -/
def fmtOptDT : Option PyDateTime → String
  | Option.none => "None"
  | Option.some d => fmtPyDateTime d

/-- The dedup key of the final pass in scrape_reviews: author, parsed
date, rating and text joined with pipes. -/
def reviewKey (r : Review) : String :=
  fmtOptStr r.author ++ "|" ++ fmtOptDT r.date ++ "|" ++ fmtOptInt r.rating ++
  "|" ++ fmtOptStr r.text

/-- The final for-loop of scrape_reviews: convert, dedup by reviewKey,
stop once the cap is reached. -/
def finalPassAux (limit : Option Nat) (conv : RawItem → Review) :
    List RawItem → List Review → List String → List Review
  | [], revs, _ => revs
  | it :: rest, revs, seen =>
    let r := conv it
    let key := reviewKey r
    if key ∈ seen then finalPassAux limit conv rest revs seen
    else
      let revs1 := revs ++ [r]
      if limitReached limit revs1.length then revs1
      else finalPassAux limit conv rest revs1 (key :: seen)

/-- The final deduplication pass over the collected raw items. -/
def finalPass (limit : Option Nat) (conv : RawItem → Review)
    (raws : List RawItem) : List Review :=
  finalPassAux limit conv raws [] []

/-- The pure pipeline of scrape_reviews: collect raw items with the page
oracle, then convert and deduplicate. -/
def scrapePipeline (page : Nat → List RawItem) (limit : Option Nat)
    (url : String) (oid : Option String)
    (fp : String → Option PyDateTime) (now : PyDateTime) : List Review :=
  finalPass limit (toReview url oid fp now) (collectReviews page limit).out

/-! ## Specification helpers for the collector -/

/-- Concatenation of the items of rounds 0..n-1 in round order. -/
def itemsUpTo (page : Nat → List RawItem) : Nat → List RawItem
  | 0 => []
  | n + 1 => itemsUpTo page n ++ page n

/-- The dedup keys occurring in rounds 0..n-1. -/
def keysUpTo (page : Nat → List RawItem) (n : Nat) : List String :=
  (itemsUpTo page n).map itemKey

/-- Reference first-occurrence filter: keep each item whose key has not
occurred before, extending the accumulator and seen set. -/
def dedupScan : List RawItem → List RawItem → List String →
    List RawItem × List String
  | [], out, seen => (out, seen)
  | it :: rest, out, seen =>
    if itemKey it ∈ seen then dedupScan rest out seen
    else dedupScan rest (out ++ [it]) (itemKey it :: seen)

/-! ## Best-effort interactions and failure propagation (scraper.py,
_try_accept_cookies, _open_reviews_section, _click_show_more_if_present,
_wait_for_any_selector, the screenshot block of scrape_reviews)

Browser calls are modelled by an oracle assigning each locator (by a
fixed index) and each selector its outcome; error values are opaque
naturals standing for the raised exception. -/

/-- Outcomes of the browser operations the interaction helpers perform. -/
structure PageOracle where
  locCount : Nat → Except Nat Nat
  locClick : Nat → Except Nat Unit
  waitSel : String → Except Nat Unit
  shot : Bool → Except Nat Unit

/-- One iteration body of the candidate-locator loops: count, then click
when present.  ok true means clicked (loop exits), ok false means absent
(loop continues), error is a raised exception. -/
def tryCandidate (o : PageOracle) (c : Nat) : Except Nat Bool :=
  match o.locCount c with
  | Except.error e => Except.error e
  | Except.ok n =>
    if 0 < n then
      match o.locClick c with
      | Except.error e => Except.error e
      | Except.ok _ => Except.ok true
    else Except.ok false

/-- The try/except-continue loop over an ordered list of candidate
locators, as in _try_accept_cookies and _click_show_more_if_present:
every failure is swallowed. -/
def bestEffortClickSeq (o : PageOracle) : List Nat → Except Nat Unit
  | [] => Except.ok ()
  | c :: rest =>
    match tryCandidate o c with
    | Except.ok true => Except.ok ()
    | Except.ok false => bestEffortClickSeq o rest
    | Except.error _ => bestEffortClickSeq o rest

/-- Model of _try_accept_cookies (two candidate locators). -/
def tryAcceptCookies (o : PageOracle) : Except Nat Unit :=
  bestEffortClickSeq o [0, 1]

/-- Model of _click_show_more_if_present (two candidate locators). -/
def clickShowMoreIfPresent (o : PageOracle) : Except Nat Unit :=
  bestEffortClickSeq o [2, 3]

/-- The selector list of the mandatory wait in _open_reviews_section. -/
def reviewSelectors : List String :=
  ["[class*=\"business-reviews-card\"]", "[class*=\"business-reviews-card-view\"]",
   "[data-testid*=\"review\"]", "text=/Написать отзыв/i"]

/-- Model of _wait_for_any_selector: try each selector, return on the
first success; after exhaustion re-raise the last failure if any. -/
def waitForAnySelector (o : PageOracle) :
    List String → Option Nat → Except Nat Unit
  | [], Option.none => Except.ok ()
  | [], Option.some e => Except.error e
  | s :: rest, _last =>
    match o.waitSel s with
    | Except.ok _ => Except.ok ()
    | Except.error e => waitForAnySelector o rest (Option.some e)

/-- Model of _open_reviews_section: the best-effort tab/link/button click
loop (four candidates), then the mandatory wait; only the wait can fail. -/
def openReviewsSection (o : PageOracle) : Except Nat Unit :=
  match bestEffortClickSeq o [4, 5, 6, 7] with
  | _ => waitForAnySelector o reviewSelectors Option.none

/-- Model of the debug-screenshot block of scrape_reviews: full-page shot,
on failure a reduced shot, on failure pass. -/
def screenshotBlock (o : PageOracle) : Except Nat Unit :=
  match o.shot true with
  | Except.ok _ => Except.ok ()
  | Except.error _ =>
    match o.shot false with
    | Except.ok _ => Except.ok ()
    | Except.error _ => Except.ok ()

/-- Success test for the modelled interactions. -/
def isOkE : Except Nat Unit → Bool
  | Except.ok _ => true
  | Except.error _ => false

/-! ## Session lifecycle of scrape_reviews (resource teardown paths) -/

/-- Observable events of one scrape_reviews invocation, in order: the
steps inside the playwright context manager, the explicit closes, and
the playwright stop performed by the context-manager exit. -/
inductive ScrapeEv where
  | evLaunch
  | evNewContext
  | evNewPage
  | evGoto
  | evConsent
  | evOpenReviews
  | evCollect
  | evShot
  | evCtxClose
  | evBrowserClose
  | evPwStop
deriving DecidableEq, Repr

/-- Outcome environment of one run: whether navigation succeeds, whether
the mandatory wait for a reviews signal succeeds, whether the collection
loop's page evaluations succeed, and whether a debug screenshot was
requested. -/
structure ScrapeEnv where
  gotoOk : Bool
  waitOk : Bool
  collectOk : Bool
  shotRequested : Bool
deriving DecidableEq, Repr

/-- Event trace of scrape_reviews and whether the run completed without an
exception.  An exception unwinds to the caller through the context
manager: the async-with exit (playwright stop) runs, the statements after
the raising await - including context.close() and browser.close() - do
not. -/
def scrapeTrace (env : ScrapeEnv) : List ScrapeEv × Bool :=
  let pre := [ScrapeEv.evLaunch, ScrapeEv.evNewContext, ScrapeEv.evNewPage,
              ScrapeEv.evGoto]
  if ¬env.gotoOk then (pre ++ [ScrapeEv.evPwStop], false)
  else
    let pre2 := pre ++ [ScrapeEv.evConsent, ScrapeEv.evOpenReviews]
    if ¬env.waitOk then (pre2 ++ [ScrapeEv.evPwStop], false)
    else
      let pre3 := pre2 ++ [ScrapeEv.evCollect]
      if ¬env.collectOk then (pre3 ++ [ScrapeEv.evPwStop], false)
      else
        let pre4 := pre3 ++ (if env.shotRequested then [ScrapeEv.evShot] else [])
        (pre4 ++ [ScrapeEv.evCtxClose, ScrapeEv.evBrowserClose, ScrapeEv.evPwStop],
         true)

/-! ## Lemmas and claim theorems -/

/-- decide helper data for date claims: an oracle whose fallback parser
always fails. -/
def fpNone : String → Option PyDateTime := fun _ => Option.none

/-- A fixed reference clock for date claims. -/
def nowJun10 : PyDateTime := ⟨2025, 6, 10, 0, 0, 0⟩

theorem ratingSearch_eq_find (s : String) :
    ratingSearch s = (s.data.find? isRatingDigit).map digitVal := by
  cases h : s.data.find? isRatingDigit with
  | none => simp [ratingSearch, h]
  | some c =>
    have hc := List.find?_some h
    simp only [isRatingDigit, Bool.and_eq_true, decide_eq_true_eq] at hc
    have e1 : Char.toNat '1' = 49 := by decide
    have e5 : Char.toNat '5' = 53 := by decide
    rw [e1, e5] at hc
    have hcond : 1 ≤ digitVal c ∧ digitVal c ≤ 5 := by
      simp only [digitVal]
      omega
    simp [ratingSearch, h, hcond]

/-- C5.  Rating normalization: an integer already in [1,5] is accepted
unchanged; otherwise the first character of class [1-5] of the string
form decides the result, and the result is absent when no such character
exists ("6", "0" and digit-free inputs give absent).  The function is
total, so it never raises. -/
theorem c5_rating_normalization :
    (∀ n : Int, 1 ≤ n → n ≤ 5 → coerce_rating (PyVal.int n) = Option.some n)
    ∧ (∀ s : String, coerce_rating (PyVal.str s) =
        (s.data.find? isRatingDigit).map digitVal)
    ∧ (∀ s : String, (∀ c ∈ s.data, isRatingDigit c = false) →
        coerce_rating (PyVal.str s) = Option.none)
    ∧ coerce_rating (PyVal.int 4) = Option.some 4
    ∧ coerce_rating (PyVal.str "рейтинг 3 из 5") = Option.some 3
    ∧ coerce_rating (PyVal.str "6") = Option.none
    ∧ coerce_rating (PyVal.str "0") = Option.none
    ∧ coerce_rating PyVal.none = Option.none := by
  refine ⟨?_, ?_, ?_, by decide, by decide, by decide, by decide, rfl⟩
  · intro n h1 h5
    simp [coerce_rating, h1, h5]
  · intro s
    exact ratingSearch_eq_find s
  · intro s hnone
    have : s.data.find? isRatingDigit = Option.none := by
      rw [List.find?_eq_none]
      intro c hc
      simp [hnone c hc]
    simp [coerce_rating, ratingSearch_eq_find, this]

/-- C5 witness: the universal clauses at concrete inputs. -/
theorem c5_witness :
    coerce_rating (PyVal.int 2) = Option.some 2
    ∧ coerce_rating (PyVal.str "абв") = Option.none :=
  ⟨c5_rating_normalization.1 2 (by decide) (by decide),
   c5_rating_normalization.2.2.1 "абв" (by decide)⟩

/-- C7.  Date normalization rejects strings containing a contamination
token (a review-count label or the default placeholder), and the
implausible-year guard of the lenient fallback: when the earlier stages
yield nothing, the string has no relative-date token and every parse the
fallback can produce has a year before 1990 (including the parser
failing), the result is absent. -/
theorem c7_date_guards :
    ∀ (fp : String → Option PyDateTime) (now : PyDateTime) (s : String),
    (containsSub (pyLower (pyStrip s)) "отзыв" = true ∨
       containsSub (pyLower (pyStrip s)) "по умолчанию" = true →
       coerce_date fp now (PyVal.str s) = Option.none)
    ∧ (hasRelToken (pyLower (pyStrip s)) = false →
       stage1 (pyLower (pyStrip s)) now.year = Option.none →
       stage2 (pyLower (pyStrip s)) now = Option.none →
       (∀ dt, fp (pyStrip s) = Option.some dt → dt.year < 1990) →
       coerce_date fp now (PyVal.str s) = Option.none) := by
  intro fp now s
  constructor
  · intro h
    show coerceDateStr fp now s = Option.none
    unfold coerceDateStr
    by_cases he : pyStrip s = ""
    · simp [he]
    · rw [if_neg he, if_pos]
      rcases h with h | h <;> simp [h]
  · intro hrel h1 h2 hfp
    show coerceDateStr fp now s = Option.none
    unfold coerceDateStr
    by_cases he : pyStrip s = ""
    · simp [he]
    · rw [if_neg he]
      by_cases hcont : (containsSub (pyLower (pyStrip s)) "отзыв" ||
          containsSub (pyLower (pyStrip s)) "по умолчанию") = true
      · rw [if_pos hcont]
      · rw [if_neg hcont, h1]
        show stage23 fp now (pyLower (pyStrip s)) (pyStrip s) = Option.none
        unfold stage23
        rw [h2]
        show stage3 fp (pyLower (pyStrip s)) (pyStrip s) = Option.none
        unfold stage3
        cases hv : fp (pyStrip s) with
        | none => rfl
        | some dt =>
          show (if dt.year < 1990 ∧ ¬hasRelToken (pyLower (pyStrip s)) = true
              then Option.none else Option.some dt) = Option.none
          rw [if_pos ⟨hfp dt hv, by simp [hrel]⟩]

/-- C7 witness: a contaminated string, and a string whose only parse is a
fallback result with year 317. -/
theorem c7_witness :
    coerce_date fpNone nowJun10 (PyVal.str "317 отзывов") = Option.none
    ∧ coerce_date (fun _ => Option.some ⟨317, 3, 7, 0, 0, 0⟩) nowJun10
        (PyVal.str "b") = Option.none :=
  ⟨(c7_date_guards fpNone nowJun10 "317 отзывов").1 (Or.inl (by decide)),
   (c7_date_guards (fun _ => Option.some ⟨317, 3, 7, 0, 0, 0⟩) nowJun10 "b").2
     (by decide) (by decide) (by decide)
     (fun dt h => by cases h; decide)⟩

theorem bestEffortClickSeq_ok (o : PageOracle) :
    ∀ l : List Nat, bestEffortClickSeq o l = Except.ok () := by
  intro l
  induction l with
  | nil => rfl
  | cons c rest ih =>
    unfold bestEffortClickSeq
    cases tryCandidate o c with
    | error e => exact ih
    | ok b => cases b <;> simp [ih]

theorem waitForAnySelector_isOk (o : PageOracle) :
    ∀ (sels : List String) (last : Option Nat),
    isOkE (waitForAnySelector o sels last) = true ↔
      (sels = [] ∧ last = Option.none) ∨
        ∃ s ∈ sels, isOkE (o.waitSel s) = true := by
  intro sels
  induction sels with
  | nil =>
    intro last
    cases last <;> simp [waitForAnySelector, isOkE]
  | cons s rest ih =>
    intro last
    unfold waitForAnySelector
    cases hw : o.waitSel s with
    | ok u =>
      constructor
      · intro _
        exact Or.inr ⟨s, List.mem_cons_self s rest, by simp [hw, isOkE]⟩
      · intro _
        simp [isOkE]
    | error e =>
      rw [ih (Option.some e)]
      constructor
      · rintro (⟨_, h⟩ | ⟨x, hx, hok⟩)
        · exact absurd h (by simp)
        · exact Or.inr ⟨x, List.mem_cons_of_mem s hx, hok⟩
      · rintro (⟨h, _⟩ | ⟨x, hx, hok⟩)
        · exact absurd h (by simp)
        · rcases List.mem_cons.mp hx with rfl | hx2
          · rw [hw] at hok
            exact absurd hok (by simp [isOkE])
          · exact Or.inr ⟨x, hx2, hok⟩

/-- C8.  Every best-effort interaction (cookie consent, reviews-tab
clicks, show-more click, the screenshot block) swallows its failures and
completes normally for every oracle; the reviews-section step is exactly
its mandatory wait (the click part cannot contribute a failure), and that
wait fails precisely when every selector alternative fails, so only a
failure of the reviews-present wait can propagate. -/
theorem c8_best_effort_isolation :
    ∀ o : PageOracle,
    tryAcceptCookies o = Except.ok ()
    ∧ clickShowMoreIfPresent o = Except.ok ()
    ∧ screenshotBlock o = Except.ok ()
    ∧ bestEffortClickSeq o [4, 5, 6, 7] = Except.ok ()
    ∧ openReviewsSection o = waitForAnySelector o reviewSelectors Option.none
    ∧ (∀ sels : List String,
        isOkE (waitForAnySelector o sels Option.none) = true ↔
          sels = [] ∨ ∃ s ∈ sels, isOkE (o.waitSel s) = true) := by
  intro o
  refine ⟨bestEffortClickSeq_ok o _, bestEffortClickSeq_ok o _, ?_, ?_, ?_, ?_⟩
  · unfold screenshotBlock
    cases o.shot true with
    | ok u => rfl
    | error e => cases o.shot false <;> rfl
  · exact bestEffortClickSeq_ok o _
  · rfl
  · intro sels
    rw [waitForAnySelector_isOk o sels Option.none]
    constructor
    · rintro (⟨h, _⟩ | h)
      · exact Or.inl h
      · exact Or.inr h
    · rintro (h | h)
      · exact Or.inl ⟨h, rfl⟩
      · exact Or.inr h

/-- C9 as amended.  The explicit context.close() and browser.close()
calls execute exactly on the successful exit paths (normal completion,
including the early-return-on-cap which returns normally from the
collector); on every exception path they are skipped and only the
playwright context-manager teardown runs before the exception reaches
the caller. -/
theorem c9_teardown_amended :
    ∀ env : ScrapeEnv,
    (ScrapeEv.evCtxClose ∈ (scrapeTrace env).1 ↔ (scrapeTrace env).2 = true)
    ∧ (ScrapeEv.evBrowserClose ∈ (scrapeTrace env).1 ↔ (scrapeTrace env).2 = true)
    ∧ ScrapeEv.evPwStop ∈ (scrapeTrace env).1 := by
  intro env
  rcases env with ⟨g, w, c, sh⟩
  cases g <;> cases w <;> cases c <;> cases sh <;> decide

/-- C9 counterexample to the claim as stated: when the mandatory wait for
a reviews signal fails, the run fails and neither the context nor the
browser close call has executed before the exception reaches the caller. -/
theorem c9_counterexample :
    (scrapeTrace ⟨true, false, true, false⟩).2 = false
    ∧ ScrapeEv.evCtxClose ∉ (scrapeTrace ⟨true, false, true, false⟩).1
    ∧ ScrapeEv.evBrowserClose ∉ (scrapeTrace ⟨true, false, true, false⟩).1 := by
  decide

/-- Two raw items that differ as records but share the joined dedup key
(the pipe of the first author shifts content across key positions). -/
def c10ItemA : RawItem :=
  ⟨Option.some "x|y", Option.some "z", Option.some 5, Option.some "great"⟩

/-- The second item of the colliding pair. -/
def c10ItemB : RawItem :=
  ⟨Option.some "x", Option.some "y|z", Option.some 5, Option.some "great"⟩

/-- A page rendering both colliding items in round 0. -/
def c10Page : Nat → List RawItem :=
  fun i => if i = 0 then [c10ItemA, c10ItemB] else []

/-- C10.  The dedup key is a single pipe-joined string, not a 4-tuple:
the two items above have different field tuples but equal keys, and the
collector keeps only the first - the second, genuinely different review
is dropped, all the way to the final output. -/
theorem c10_joined_key_collision :
    c10ItemA ≠ c10ItemB
    ∧ itemKey c10ItemA = itemKey c10ItemB
    ∧ (collectReviews c10Page Option.none).out = [c10ItemA]
    ∧ (scrapePipeline c10Page Option.none "u" Option.none fpNone
        nowJun10).length = 1 := by
  refine ⟨by decide, by decide, by decide, by decide⟩

/-- C3 as amended.  When the lowered stripped input matches the
day + Russian-month [+ year] pattern (with the month name in the fixed
twelve-name table, the day in the regex range 1..31 and the resulting
date constructible), the result is that calendar date with a zero time
component, the year defaulting to the current year; when the matched day
is in 1..31 but not a valid day of that month, the result is absent
directly (the later stages are NOT applied); only an unknown month name
or a day outside 1..31 falls through to the relative-date and fallback
stages. -/
theorem c3_russian_date_stage :
    ∀ (fp : String → Option PyDateTime) (now : PyDateTime) (s : String)
      (day : Nat) (mn : String) (yOpt : Option Nat),
    containsSub (pyLower (pyStrip s)) "отзыв" = false →
    containsSub (pyLower (pyStrip s)) "по умолчанию" = false →
    ruDateSearch (pyLower (pyStrip s)) = Option.some (day, mn, yOpt) →
    (∀ mon, monthsRu.lookup mn = Option.some mon → 1 ≤ day → day ≤ 31 →
       validYMD (yOpt.getD now.year.toNat) mon day = true →
       coerce_date fp now (PyVal.str s) =
         Option.some (mkDT (yOpt.getD now.year.toNat) mon day)
       ∧ (mkDT (yOpt.getD now.year.toNat) mon day).hour = 0
       ∧ (mkDT (yOpt.getD now.year.toNat) mon day).minute = 0
       ∧ (mkDT (yOpt.getD now.year.toNat) mon day).second = 0)
    ∧ (∀ mon, monthsRu.lookup mn = Option.some mon → 1 ≤ day → day ≤ 31 →
       validYMD (yOpt.getD now.year.toNat) mon day = false →
       coerce_date fp now (PyVal.str s) = Option.none)
    ∧ (monthsRu.lookup mn = Option.none ∨ day = 0 ∨ 31 < day →
       coerce_date fp now (PyVal.str s) =
         stage23 fp now (pyLower (pyStrip s)) (pyStrip s)) := by
  intro fp now s day mn yOpt hc1 hc2 hsearch
  have hne : pyStrip s ≠ "" := by
    intro he
    rw [he] at hsearch
    have hz : ruDateSearch (pyLower "") = Option.none := by decide
    rw [hz] at hsearch
    exact Option.noConfusion hsearch
  have hbody : coerce_date fp now (PyVal.str s) =
      match stage1 (pyLower (pyStrip s)) now.year with
      | Option.some r => r
      | Option.none => stage23 fp now (pyLower (pyStrip s)) (pyStrip s) := by
    show coerceDateStr fp now s = _
    unfold coerceDateStr
    rw [if_neg hne, if_neg (by simp [hc1, hc2])]
  refine ⟨?_, ?_, ?_⟩
  · intro mon hmon hd1 hd31 hvalid
    refine ⟨?_, rfl, rfl, rfl⟩
    rw [hbody]
    unfold stage1
    rw [hsearch]
    simp only [hmon, if_pos (And.intro hd1 hd31), hvalid, if_true]
  · intro mon hmon hd1 hd31 hvalid
    rw [hbody]
    unfold stage1
    rw [hsearch]
    simp only [hmon, if_pos (And.intro hd1 hd31), hvalid]
    rfl
  · intro hfall
    have hst : stage1 (pyLower (pyStrip s)) now.year = Option.none := by
      rcases hfall with hmon | hday
      · simp [stage1, hsearch, hmon]
      · cases hlk : monthsRu.lookup mn with
        | none => simp [stage1, hsearch, hlk]
        | some mon =>
          have hcond : ¬(1 ≤ day ∧ day ≤ 31) := by omega
          simp [stage1, hsearch, hlk, hcond]
    rw [hbody, hst]

/-- C3 counterexample to the claim as stated: on an input whose matched
day (28..31 range class) is invalid for the matched month, _coerce_date
returns absent directly even though a later stage (the relative-date
recognizer) would succeed on the same string. -/
theorem c3_counterexample :
    coerce_date fpNone nowJun10 (PyVal.str "31 февраля сегодня") = Option.none
    ∧ stage2 (pyLower (pyStrip "31 февраля сегодня")) nowJun10 =
        Option.some ⟨2025, 6, 10, 0, 0, 0⟩ := by
  refine ⟨by decide, by decide⟩

/-- C3 witness: the two spec examples, under the fixed clock of June 2025. -/
theorem c3_witness :
    coerce_date fpNone nowJun10 (PyVal.str "4 сентября 2025") =
      Option.some (mkDT 2025 9 4)
    ∧ coerce_date fpNone nowJun10 (PyVal.str "29 июля") =
      Option.some (mkDT 2025 7 29) :=
  ⟨((c3_russian_date_stage fpNone nowJun10 "4 сентября 2025" 4 "сентября"
      (Option.some 2025) (by decide) (by decide) (by decide)).1 9 (by decide)
      (by decide) (by decide) (by decide)).1,
   ((c3_russian_date_stage fpNone nowJun10 "29 июля" 29 "июля" Option.none
      (by decide) (by decide) (by decide)).1 7 (by decide) (by decide)
      (by decide) (by decide)).1⟩

theorem orgIdScan_digits :
    ∀ l run, orgIdScan l = Option.some run →
      6 ≤ run.length ∧ run.all Char.isDigit = true := by
  intro l
  induction l with
  | nil => intro run h; exact absurd h (by simp [orgIdScan])
  | cons c rest ih =>
    intro run h
    unfold orgIdScan at h
    by_cases hc : c = '/'
    · rw [if_pos hc] at h
      by_cases hcond : 6 ≤ (rest.takeWhile Char.isDigit).length ∧
          orgIdTermOk (rest.drop (rest.takeWhile Char.isDigit).length) = true
      · rw [if_pos hcond] at h
        cases h
        refine ⟨hcond.1, ?_⟩
        rw [List.all_eq_true]
        intro x hx
        exact List.mem_takeWhile_imp hx
      · rw [if_neg hcond] at h
        exact ih run h
    · rw [if_neg hc] at h
      exact ih run h

/-- C4 as amended.  The regex branch returns the captured run - a string
of 6 or more digits - exactly when a slash-preceded maximal digit run of
length at least 6 is followed, after an optional slash, by a question
mark or the end of the string (not merely by any slash); otherwise the
fallback applies, which returns the last path segment (after stripping
trailing slashes) only when it is non-empty and entirely digits, and
returns absent - without raising - whenever path parsing fails. -/
theorem c4_org_id_extraction :
    ∀ u : String,
    (∀ d, orgIdSearch u = Option.some d →
       extract_org_id u = Option.some d ∧ 6 ≤ d.length ∧
       d.data.all Char.isDigit = true)
    ∧ (orgIdSearch u = Option.none → extract_org_id u = pathFallback u)
    ∧ (∀ t, pathFallback u = Option.some t →
       t ≠ "" ∧ t.data.all Char.isDigit = true)
    ∧ (urlsplitPathE u = Except.error () → pathFallback u = Option.none) := by
  intro u
  refine ⟨?_, ?_, ?_, ?_⟩
  · intro d h
    refine ⟨by simp [extract_org_id, h], ?_⟩
    obtain ⟨run, hrun, hd⟩ : ∃ run, orgIdScan u.data = Option.some run ∧
        d = String.mk run := by
      unfold orgIdSearch at h
      cases hr : orgIdScan u.data with
      | none => rw [hr] at h; exact absurd h (by simp)
      | some run =>
        rw [hr] at h
        exact ⟨run, rfl, by cases h; rfl⟩
    have := orgIdScan_digits u.data run hrun
    subst hd
    exact ⟨this.1, this.2⟩
  · intro h
    simp [extract_org_id, h]
  · intro t h
    unfold pathFallback at h
    cases hp : urlsplitPathE u with
    | error e =>
      rw [hp] at h
      exact Option.noConfusion h
    | ok path =>
      rw [hp] at h
      have h2 : (if lastSegment (rstripSlash path) ≠ "" ∧
          (lastSegment (rstripSlash path)).data.all Char.isDigit = true
          then Option.some (lastSegment (rstripSlash path)) else Option.none) =
          Option.some t := h
      by_cases hcond : lastSegment (rstripSlash path) ≠ "" ∧
          (lastSegment (rstripSlash path)).data.all Char.isDigit = true
      · rw [if_pos hcond] at h2
        cases h2
        exact hcond
      · rw [if_neg hcond] at h2
        exact Option.noConfusion h2
  · intro h
    unfold pathFallback
    rw [h]

/-- C4 counterexample to the claim as stated: a URL whose 6-digit path
segment is followed by a slash and further path content yields absent
(the regex demands a question mark or the end after the optional slash,
and the fallback segment is not numeric), and a URL that urlparse cannot
parse still yields the digit string because the regex branch fires
first. -/
theorem c4_counterexample :
    extract_org_id "https://a/123456/b" = Option.none
    ∧ extract_org_id "http://[::1" = Option.none
    ∧ extract_org_id "http://[::1/1234567" = Option.some "1234567" := by
  refine ⟨by decide, by decide, by decide⟩

/-- C4 witness: the regex branch on the documented URL shape and the
digit-only fallback on a short trailing segment. -/
theorem c4_witness :
    extract_org_id "https://yandex.ru/maps/org/some-name/1754533743/" =
      Option.some "1754533743"
    ∧ ("777" ≠ "" ∧ "777".data.all Char.isDigit = true) :=
  ⟨((c4_org_id_extraction "https://yandex.ru/maps/org/some-name/1754533743/").1
      "1754533743" (by decide)).1,
   (c4_org_id_extraction "https://x.ru/a/b/777/").2.2.1 "777" (by decide)⟩

theorem dedupScan_cons_skip (it : RawItem) (rest out : List RawItem)
    (seen : List String) (hk : itemKey it ∈ seen) :
    dedupScan (it :: rest) out seen = dedupScan rest out seen := by
  simp only [dedupScan, if_pos hk]

theorem dedupScan_cons_add (it : RawItem) (rest out : List RawItem)
    (seen : List String) (hk : itemKey it ∉ seen) :
    dedupScan (it :: rest) out seen =
      dedupScan rest (out ++ [it]) (itemKey it :: seen) := by
  simp only [dedupScan, if_neg hk]

theorem mergeItems_cons_skip (limit : Option Nat) (it : RawItem)
    (rest out : List RawItem) (seen : List String) (n : Nat)
    (hk : itemKey it ∈ seen) :
    mergeItems limit (it :: rest) out seen n =
      mergeItems limit rest out seen n := by
  simp only [mergeItems, if_pos hk]

theorem mergeItems_cons_add (limit : Option Nat) (it : RawItem)
    (rest out : List RawItem) (seen : List String) (n : Nat)
    (hk : itemKey it ∉ seen) :
    mergeItems limit (it :: rest) out seen n =
      if limitReached limit (out ++ [it]).length then
        Sum.inl (takeLimit limit (out ++ [it]))
      else mergeItems limit rest (out ++ [it]) (itemKey it :: seen) (n + 1) := by
  simp only [mergeItems, if_neg hk]

theorem dedupScan_append :
    ∀ (xs ys : List RawItem) (out : List RawItem) (seen : List String),
    dedupScan (xs ++ ys) out seen =
      dedupScan ys (dedupScan xs out seen).1 (dedupScan xs out seen).2 := by
  intro xs
  induction xs with
  | nil => intro ys out seen; rfl
  | cons it rest ih =>
    intro ys out seen
    by_cases hk : itemKey it ∈ seen
    · simp only [List.cons_append, dedupScan, if_pos hk]
      exact ih ys out seen
    · simp only [List.cons_append, dedupScan, if_neg hk]
      exact ih ys (out ++ [it]) (itemKey it :: seen)

theorem dedupScan_seen_mem :
    ∀ (xs out : List RawItem) (seen : List String) (k : String),
    k ∈ (dedupScan xs out seen).2 ↔
      k ∈ seen ∨ ∃ it ∈ xs, itemKey it = k := by
  intro xs
  induction xs with
  | nil => intro out seen k; simp [dedupScan]
  | cons it rest ih =>
    intro out seen k
    by_cases hk : itemKey it ∈ seen
    · rw [dedupScan_cons_skip it rest out seen hk, ih]
      constructor
      · rintro (h | h)
        · exact Or.inl h
        · exact Or.inr ⟨h.choose, List.mem_cons_of_mem it h.choose_spec.1,
            h.choose_spec.2⟩
      · rintro (h | ⟨x, hx, hxk⟩)
        · exact Or.inl h
        · rcases List.mem_cons.mp hx with rfl | hx2
          · exact Or.inl (hxk ▸ hk)
          · exact Or.inr ⟨x, hx2, hxk⟩
    · rw [dedupScan_cons_add it rest out seen hk, ih]
      constructor
      · rintro (h | h)
        · rcases List.mem_cons.mp h with rfl | h2
          · exact Or.inr ⟨it, List.mem_cons_self it rest, rfl⟩
          · exact Or.inl h2
        · exact Or.inr ⟨h.choose, List.mem_cons_of_mem it h.choose_spec.1,
            h.choose_spec.2⟩
      · rintro (h | ⟨x, hx, hxk⟩)
        · exact Or.inl (List.mem_cons_of_mem _ h)
        · rcases List.mem_cons.mp hx with rfl | hx2
          · exact Or.inl (hxk ▸ List.mem_cons_self _ _)
          · exact Or.inr ⟨x, hx2, hxk⟩

theorem dedupScan_nodup :
    ∀ (xs out : List RawItem) (seen : List String),
    ((out.map itemKey).Nodup) → (∀ r ∈ out, itemKey r ∈ seen) →
    ((dedupScan xs out seen).1.map itemKey).Nodup := by
  intro xs
  induction xs with
  | nil => intro out seen h _; exact h
  | cons it rest ih =>
    intro out seen hnd hsub
    by_cases hk : itemKey it ∈ seen
    · rw [dedupScan_cons_skip it rest out seen hk]
      exact ih out seen hnd hsub
    · rw [dedupScan_cons_add it rest out seen hk]
      refine ih (out ++ [it]) (itemKey it :: seen) ?_ ?_
      · rw [List.map_append, List.map_singleton]
        rw [List.nodup_append]
        refine ⟨hnd, List.nodup_singleton _, ?_⟩
        intro k hk1 hk2
        rcases List.mem_map.mp hk1 with ⟨r, hr, hrk⟩
        rcases List.mem_singleton.mp hk2 with rfl
        exact hk (hrk ▸ hsub r hr)
      · intro r hr
        rcases List.mem_append.mp hr with h1 | h1
        · exact List.mem_cons_of_mem _ (hsub r h1)
        · rcases List.mem_singleton.mp h1 with rfl
          exact List.mem_cons_self _ _

theorem mergeItems_main (limit : Option Nat) :
    ∀ (items out : List RawItem) (seen : List String) (n : Nat),
    (∀ l, limit = Option.some l → out.length < l) →
    ((∃ m, mergeItems limit items out seen n =
        Sum.inr ((dedupScan items out seen).1, (dedupScan items out seen).2, m))
      ∧ (∀ l, limit = Option.some l → (dedupScan items out seen).1.length < l))
    ∨ (∃ p q, items = p ++ q ∧
        mergeItems limit items out seen n = Sum.inl ((dedupScan p out seen).1) ∧
        ∃ l, limit = Option.some l ∧ (dedupScan p out seen).1.length = l) := by
  intro items
  induction items with
  | nil =>
    intro out seen n hcap
    exact Or.inl ⟨⟨n, rfl⟩, hcap⟩
  | cons it rest ih =>
    intro out seen n hcap
    by_cases hk : itemKey it ∈ seen
    · have hm : mergeItems limit (it :: rest) out seen n =
          mergeItems limit rest out seen n :=
        mergeItems_cons_skip limit it rest out seen n hk
      have hd : dedupScan (it :: rest) out seen = dedupScan rest out seen :=
        dedupScan_cons_skip it rest out seen hk
      rcases ih out seen n hcap with ⟨⟨m, hmrg⟩, hlt⟩ | ⟨p, q, hpq, hres, l, hl, hlen⟩
      · exact Or.inl ⟨⟨m, by rw [hm, hd]; exact hmrg⟩, by rw [hd]; exact hlt⟩
      · refine Or.inr ⟨it :: p, q, by simp [hpq], ?_, l, hl, ?_⟩
        · rw [hm, dedupScan_cons_skip it p out seen hk]
          exact hres
        · rw [dedupScan_cons_skip it p out seen hk]
          exact hlen
    · have hm : mergeItems limit (it :: rest) out seen n =
          if limitReached limit (out ++ [it]).length then
            Sum.inl (takeLimit limit (out ++ [it]))
          else mergeItems limit rest (out ++ [it]) (itemKey it :: seen) (n + 1) :=
        mergeItems_cons_add limit it rest out seen n hk
      have hd : dedupScan (it :: rest) out seen =
          dedupScan rest (out ++ [it]) (itemKey it :: seen) :=
        dedupScan_cons_add it rest out seen hk
      cases hlr : limitReached limit (out ++ [it]).length with
      | true =>
        cases hlim : limit with
        | none => rw [hlim] at hlr; exact absurd hlr (by simp [limitReached])
        | some l =>
          rw [hlim] at hlr hm
          have hle : l ≤ out.length + 1 := by
            simpa [limitReached] using hlr
          have hlt : out.length < l := hcap l hlim
          have hleq : (out ++ [it]).length = l := by
            simp only [List.length_append, List.length_cons, List.length_nil]
            omega
          refine Or.inr ⟨[it], rest, rfl, ?_, l, rfl, ?_⟩
          · rw [hm, if_pos (by simpa [limitReached] using hle)]
            have hdd : (dedupScan [it] out seen).1 = out ++ [it] := by
              rw [dedupScan_cons_add it [] out seen hk]
              rfl
            rw [hdd]
            show Sum.inl ((out ++ [it]).take l) = _
            rw [← hleq, List.take_length]
          · have hdd : (dedupScan [it] out seen).1 = out ++ [it] := by
              rw [dedupScan_cons_add it [] out seen hk]
              rfl
            rw [hdd, hleq]
      | false =>
        have hcap1 : ∀ l, limit = Option.some l → (out ++ [it]).length < l := by
          intro l hl
          rw [hl] at hlr
          simp [limitReached] at hlr
          simp only [List.length_append, List.length_cons, List.length_nil]
          omega
        rcases ih (out ++ [it]) (itemKey it :: seen) (n + 1) hcap1 with
          ⟨⟨m, hmrg⟩, hlt⟩ | ⟨p, q, hpq, hres, l, hl, hlen⟩
        · refine Or.inl ⟨⟨m, ?_⟩, by rw [hd]; exact hlt⟩
          rw [hm, if_neg (by rw [hlr]; simp), hd]
          exact hmrg
        · refine Or.inr ⟨it :: p, q, by simp [hpq], ?_, l, hl, ?_⟩
          · rw [hm, if_neg (by rw [hlr]; simp), dedupScan_cons_add it p out seen hk]
            exact hres
          · rw [dedupScan_cons_add it p out seen hk]
            exact hlen

theorem collectAux_step (page : Nat → List RawItem) (limit : Option Nat)
    (i fuel : Nat) (out : List RawItem) (seen : List String) (stable : Nat) :
    collectAux page limit i (fuel + 1) out seen stable =
      match mergeItems limit (page i) out seen 0 with
      | Sum.inl res => ⟨res, ExitKind.capped, i + 1⟩
      | Sum.inr (out1, seen1, newCnt) =>
        if 20 ≤ (if newCnt = 0 then stable + 1 else 0) then
          ⟨out1, ExitKind.stable, i + 1⟩
        else collectAux page limit (i + 1) fuel out1 seen1
          (if newCnt = 0 then stable + 1 else 0) := rfl

theorem itemsUpTo_prefix_le (page : Nat → List RawItem) :
    ∀ (m n : Nat), m ≤ n → itemsUpTo page m <+: itemsUpTo page n := by
  intro m n
  induction n with
  | zero => intro h; rw [Nat.le_zero.mp h]
  | succ n ihn =>
    intro h
    rcases Nat.lt_or_ge m (n + 1) with h1 | h1
    · have : itemsUpTo page m <+: itemsUpTo page n := ihn (by omega)
      exact this.trans (List.prefix_append _ _)
    · rw [Nat.le_antisymm h h1]

theorem collectAux_main (page : Nat → List RawItem) (limit : Option Nat) :
    ∀ (fuel i : Nat) (out : List RawItem) (seen : List String) (stable : Nat),
    i + fuel ≤ 260 →
    (out, seen) = dedupScan (itemsUpTo page i) [] [] →
    (∀ l, limit = Option.some l → out.length < l) →
    ∃ p, p <+: itemsUpTo page 260 ∧
      (collectAux page limit i fuel out seen stable).out = (dedupScan p [] []).1 ∧
      (∀ l, limit = Option.some l →
        (collectAux page limit i fuel out seen stable).out.length ≤ l) := by
  intro fuel
  induction fuel with
  | zero =>
    intro i out seen stable hle hstate hcap
    refine ⟨itemsUpTo page i, itemsUpTo_prefix_le page i 260 (by omega), ?_, ?_⟩
    · show out = _
      rw [← hstate]
    · intro l hl
      exact Nat.le_of_lt (hcap l hl)
  | succ fuel ih =>
    intro i out seen stable hle hstate hcap
    have hnext : dedupScan (itemsUpTo page (i + 1)) [] [] =
        dedupScan (page i) out seen := by
      show dedupScan (itemsUpTo page i ++ page i) [] [] = _
      rw [dedupScan_append, ← hstate]
    rcases mergeItems_main limit (page i) out seen 0 hcap with
      ⟨⟨m, hmrg⟩, hlt⟩ | ⟨p', q, hpq, hres, l, hl, hlen⟩
    · have hcoll : collectAux page limit i (fuel + 1) out seen stable =
          if 20 ≤ (if m = 0 then stable + 1 else 0) then
            (⟨(dedupScan (page i) out seen).1, ExitKind.stable, i + 1⟩ : CollectResult)
          else collectAux page limit (i + 1) fuel (dedupScan (page i) out seen).1
            (dedupScan (page i) out seen).2 (if m = 0 then stable + 1 else 0) := by
        rw [collectAux_step, hmrg]
      by_cases hst : 20 ≤ (if m = 0 then stable + 1 else 0)
      · rw [hcoll, if_pos hst]
        refine ⟨itemsUpTo page (i + 1),
          itemsUpTo_prefix_le page (i + 1) 260 (by omega), ?_, ?_⟩
        · show (dedupScan (page i) out seen).1 = _
          rw [hnext]
        · intro l hl
          exact Nat.le_of_lt (hlt l hl)
      · rw [hcoll, if_neg hst]
        refine ih (i + 1) (dedupScan (page i) out seen).1
          (dedupScan (page i) out seen).2 _ (by omega) ?_ hlt
        rw [hnext]
    · have hcoll : collectAux page limit i (fuel + 1) out seen stable =
          ⟨(dedupScan p' out seen).1, ExitKind.capped, i + 1⟩ := by
        rw [collectAux_step, hres]
      have hpre : (itemsUpTo page i ++ p') <+: itemsUpTo page 260 := by
        have h1 : (itemsUpTo page i ++ p') <+: itemsUpTo page (i + 1) := by
          show _ <+: itemsUpTo page i ++ page i
          exact ⟨q, by rw [List.append_assoc, hpq]⟩
        exact h1.trans (itemsUpTo_prefix_le page (i + 1) 260 (by omega))
      have hdp : dedupScan (itemsUpTo page i ++ p') [] [] =
          dedupScan p' out seen := by
        rw [dedupScan_append, ← hstate]
      refine ⟨itemsUpTo page i ++ p', hpre, ?_, ?_⟩
      · rw [hcoll, hdp]
      · intro l1 hl1
        rw [hcoll]
        have hll : l1 = l := by rw [hl1] at hl; exact Option.some_inj.mp hl
        subst hll
        exact Nat.le_of_eq hlen

theorem mergeItems_limit0 (page0 : List RawItem) :
    ∀ (seen : List String) (n : Nat),
    mergeItems (Option.some 0) page0 [] seen n = Sum.inr ([], seen, n)
    ∨ mergeItems (Option.some 0) page0 [] seen n = Sum.inl [] := by
  induction page0 with
  | nil => intro seen n; exact Or.inl rfl
  | cons it rest ih =>
    intro seen n
    by_cases hk : itemKey it ∈ seen
    · have hm : mergeItems (Option.some 0) (it :: rest) [] seen n =
          mergeItems (Option.some 0) rest [] seen n :=
        mergeItems_cons_skip (Option.some 0) it rest [] seen n hk
      rw [hm]
      exact ih seen n
    · have hm : mergeItems (Option.some 0) (it :: rest) [] seen n =
          Sum.inl [] := by
        rw [mergeItems_cons_add (Option.some 0) it rest [] seen n hk,
          if_pos (by simp [limitReached])]
        rfl
      exact Or.inr hm

theorem collectAux_limit0 (page : Nat → List RawItem) :
    ∀ (fuel i : Nat) (seen : List String) (stable : Nat),
    (collectAux page (Option.some 0) i fuel [] seen stable).out = [] := by
  intro fuel
  induction fuel with
  | zero => intro i seen stable; rfl
  | succ fuel ih =>
    intro i seen stable
    rcases mergeItems_limit0 (page i) seen 0 with hm | hm
    · rw [collectAux_step, hm]
      show (if 20 ≤ stable + 1 then
          ({ out := [], exit := ExitKind.stable, rounds := i + 1 } : CollectResult)
          else collectAux page (Option.some 0) (i + 1) fuel [] seen
            (stable + 1)).out = []
      by_cases hst : 20 ≤ stable + 1
      · rw [if_pos hst]
      · rw [if_neg hst]
        exact ih (i + 1) seen (stable + 1)
    · rw [collectAux_step, hm]

/-- The collector output is the first-occurrence filter of a prefix of the
round-concatenated extraction stream, and respects the cap. -/
theorem collect_prefix (page : Nat → List RawItem) (limit : Option Nat) :
    ∃ p, p <+: itemsUpTo page 260 ∧
      (collectReviews page limit).out = (dedupScan p [] []).1 ∧
      (∀ l, limit = Option.some l → (collectReviews page limit).out.length ≤ l) := by
  cases limit with
  | none =>
    rcases collectAux_main page Option.none 260 0 [] [] 0 (by omega) rfl
      (by intro l hl; exact Option.noConfusion hl) with ⟨p, h1, h2, h3⟩
    exact ⟨p, h1, h2, h3⟩
  | some l =>
    cases l with
    | zero =>
      refine ⟨[], List.nil_prefix, ?_, ?_⟩
      · exact collectAux_limit0 page 260 0 [] 0
      · intro l1 hl1
        rw [show (collectReviews page (Option.some 0)).out = [] from
          collectAux_limit0 page 260 0 [] 0]
        simp
    | succ k =>
      rcases collectAux_main page (Option.some (k + 1)) 260 0 [] [] 0 (by omega) rfl
        (by intro l1 hl1; cases hl1; simp) with ⟨p, h1, h2, h3⟩
      exact ⟨p, h1, h2, h3⟩

theorem mergeItems_all_seen (limit : Option Nat) :
    ∀ (items out : List RawItem) (seen : List String) (n : Nat),
    (∀ it ∈ items, itemKey it ∈ seen) →
    mergeItems limit items out seen n = Sum.inr (out, seen, n) := by
  intro items
  induction items with
  | nil => intro out seen n _; rfl
  | cons it rest ih =>
    intro out seen n hall
    rw [mergeItems_cons_skip limit it rest out seen n
      (hall it (List.mem_cons_self it rest))]
    exact ih out seen n (fun x hx => hall x (List.mem_cons_of_mem it hx))

theorem mergeItems_inr_seen (limit : Option Nat) :
    ∀ (items out : List RawItem) (seen : List String) (n : Nat)
      (o : List RawItem) (s : List String) (m : Nat),
    mergeItems limit items out seen n = Sum.inr (o, s, m) →
    ∀ k, (k ∈ seen ∨ ∃ it ∈ items, itemKey it = k) → k ∈ s := by
  intro items
  induction items with
  | nil =>
    intro out seen n o s m h k hk
    cases h
    rcases hk with hk | ⟨it, hit, _⟩
    · exact hk
    · exact absurd hit (List.not_mem_nil it)
  | cons it rest ih =>
    intro out seen n o s m h k hk
    by_cases hks : itemKey it ∈ seen
    · rw [mergeItems_cons_skip limit it rest out seen n hks] at h
      refine ih out seen n o s m h k ?_
      rcases hk with hk | ⟨x, hx, hxk⟩
      · exact Or.inl hk
      · rcases List.mem_cons.mp hx with rfl | hx2
        · exact Or.inl (hxk ▸ hks)
        · exact Or.inr ⟨x, hx2, hxk⟩
    · rw [mergeItems_cons_add limit it rest out seen n hks] at h
      cases hlr : limitReached limit (out ++ [it]).length with
      | true =>
        rw [if_pos (by rw [hlr])] at h
        exact absurd h (by simp)
      | false =>
        rw [if_neg (by rw [hlr]; simp)] at h
        refine ih (out ++ [it]) (itemKey it :: seen) (n + 1) o s m h k ?_
        rcases hk with hk | ⟨x, hx, hxk⟩
        · exact Or.inl (List.mem_cons_of_mem _ hk)
        · rcases List.mem_cons.mp hx with rfl | hx2
          · exact Or.inl (hxk ▸ List.mem_cons_self _ _)
          · exact Or.inr ⟨x, hx2, hxk⟩

theorem keysUpTo_mem (page : Nat → List RawItem) :
    ∀ (n : Nat) (k : String),
    k ∈ keysUpTo page n ↔ ∃ j, j < n ∧ ∃ it ∈ page j, itemKey it = k := by
  intro n
  induction n with
  | zero =>
    intro k
    simp [keysUpTo, itemsUpTo]
  | succ n ihn =>
    intro k
    unfold keysUpTo itemsUpTo
    rw [List.map_append, List.mem_append]
    constructor
    · rintro (h | h)
      · rcases (ihn k).mp h with ⟨j, hj, hit⟩
        exact ⟨j, by omega, hit⟩
      · rcases List.mem_map.mp h with ⟨it, hit, hk⟩
        exact ⟨n, by omega, it, hit, hk⟩
    · rintro ⟨j, hj, it, hit, hk⟩
      rcases Nat.lt_or_ge j n with h1 | h1
      · exact Or.inl ((ihn k).mpr ⟨j, h1, it, hit, hk⟩)
      · have : j = n := by omega
        subst this
        exact Or.inr (List.mem_map.mpr ⟨it, hit, hk⟩)

theorem no_new_since (page : Nat → List RawItem) (K : Nat)
    (h : ∀ i, K ≤ i → ∀ it ∈ page i, itemKey it ∈ keysUpTo page i) :
    ∀ j, K ≤ j → ∀ it ∈ page j, itemKey it ∈ keysUpTo page K := by
  intro j
  induction j using Nat.strong_induction_on with
  | _ j ih =>
    intro hKj it hit
    rcases (keysUpTo_mem page j (itemKey it)).mp (h j hKj it hit) with
      ⟨j1, hj1, it1, hit1, hk1⟩
    rcases Nat.lt_or_ge j1 K with h1 | h1
    · exact (keysUpTo_mem page K (itemKey it)).mpr ⟨j1, h1, it1, hit1, hk1⟩
    · exact hk1 ▸ ih j1 hj1 h1 it1 hit1

theorem collectAux_stable_exit (page : Nat → List RawItem) (limit : Option Nat) :
    ∀ (fuel i : Nat) (out : List RawItem) (seen : List String) (stable : Nat),
    (∀ j, i ≤ j → ∀ it ∈ page j, itemKey it ∈ seen) →
    stable < 20 → 20 ≤ stable + fuel →
    (collectAux page limit i fuel out seen stable).exit = ExitKind.stable ∧
    (collectAux page limit i fuel out seen stable).rounds = i + (20 - stable) := by
  intro fuel
  induction fuel with
  | zero =>
    intro i out seen stable _ h1 h2
    omega
  | succ fuel ih =>
    intro i out seen stable hseen h1 h2
    have hmrg : mergeItems limit (page i) out seen 0 = Sum.inr (out, seen, 0) :=
      mergeItems_all_seen limit (page i) out seen 0
        (fun it hit => hseen i (Nat.le_refl i) it hit)
    rw [collectAux_step, hmrg]
    show (if 20 ≤ stable + 1 then
        ({ out := out, exit := ExitKind.stable, rounds := i + 1 } : CollectResult)
        else collectAux page limit (i + 1) fuel out seen (stable + 1)).exit =
          ExitKind.stable ∧
      (if 20 ≤ stable + 1 then
        ({ out := out, exit := ExitKind.stable, rounds := i + 1 } : CollectResult)
        else collectAux page limit (i + 1) fuel out seen (stable + 1)).rounds =
          i + (20 - stable)
    by_cases hst : 20 ≤ stable + 1
    · rw [if_pos hst]
      exact ⟨rfl, by show i + 1 = i + (20 - stable); omega⟩
    · rw [if_neg hst]
      have := ih (i + 1) out seen (stable + 1)
        (fun j hj it hit => hseen j (by omega) it hit) (by omega) (by omega)
      exact ⟨this.1, by rw [this.2]; omega⟩

theorem collectAux_reach (page : Nat → List RawItem) (limit : Option Nat)
    (K : Nat) (hK : K + 20 ≤ 260)
    (hstale : ∀ j, K ≤ j → ∀ it ∈ page j, itemKey it ∈ keysUpTo page K) :
    ∀ (fuel i : Nat) (out : List RawItem) (seen : List String) (stable : Nat),
    i + fuel = 260 → i ≤ K → stable < 20 →
    (∀ k, k ∈ keysUpTo page i → k ∈ seen) →
    (collectAux page limit i fuel out seen stable).exit ≠ ExitKind.ceiling ∧
    (collectAux page limit i fuel out seen stable).rounds ≤ K + 20 := by
  intro fuel
  induction fuel with
  | zero =>
    intro i out seen stable hif hiK h1 _
    omega
  | succ fuel ih =>
    intro i out seen stable hif hiK h1 hsub
    by_cases hiKeq : i = K
    · subst hiKeq
      have hstable := collectAux_stable_exit page limit (fuel + 1) i out seen stable
        (fun j hj it hit => hsub (itemKey it) (hstale j hj it hit)) h1 (by omega)
      refine ⟨by rw [hstable.1]; intro hc; exact ExitKind.noConfusion hc, ?_⟩
      rw [hstable.2]
      omega
    · have hiKlt : i < K := by omega
      cases hmm : mergeItems limit (page i) out seen 0 with
      | inl res =>
        have hcoll : collectAux page limit i (fuel + 1) out seen stable =
            ⟨res, ExitKind.capped, i + 1⟩ := by
          rw [collectAux_step, hmm]
        rw [hcoll]
        exact ⟨by intro hc; exact ExitKind.noConfusion hc, by show i + 1 ≤ K + 20; omega⟩
      | inr t =>
        rcases t with ⟨out1, seen1, newCnt⟩
        have hcoll : collectAux page limit i (fuel + 1) out seen stable =
            if 20 ≤ (if newCnt = 0 then stable + 1 else 0) then
              (⟨out1, ExitKind.stable, i + 1⟩ : CollectResult)
            else collectAux page limit (i + 1) fuel out1 seen1
              (if newCnt = 0 then stable + 1 else 0) := by
          rw [collectAux_step, hmm]
        have hsub1 : ∀ k, k ∈ keysUpTo page (i + 1) → k ∈ seen1 := by
          intro k hk
          refine mergeItems_inr_seen limit (page i) out seen 0 out1 seen1 newCnt
            hmm k ?_
          rcases (keysUpTo_mem page (i + 1) k).mp hk with ⟨j, hj, it, hit, hkk⟩
          rcases Nat.lt_or_ge j i with h2 | h2
          · exact Or.inl (hsub k ((keysUpTo_mem page i k).mpr ⟨j, h2, it, hit, hkk⟩))
          · have : j = i := by omega
            subst this
            exact Or.inr ⟨it, hit, hkk⟩
        rw [hcoll]
        by_cases hst : 20 ≤ (if newCnt = 0 then stable + 1 else 0)
        · rw [if_pos hst]
          exact ⟨by intro hc; exact ExitKind.noConfusion hc,
            by show i + 1 ≤ K + 20; omega⟩
        · rw [if_neg hst]
          refine ih (i + 1) out1 seen1 _ (by omega) (by omega) ?_ hsub1
          by_cases hz : newCnt = 0
          · rw [if_pos hz]
            rw [if_pos hz] at hst
            omega
          · rw [if_neg hz]
            omega

/-- C1 as amended.  If no extraction round from round K on yields an item
whose key is new (every extracted key already occurred in an earlier
round), and the threshold fits under the ceiling (K + 20 <= 260), the
collector exits through the cap or stable-rounds return - never by the
260-iteration ceiling - within K + 20 rounds.  (The counterexample shows
the claim fails without the K + 20 <= 260 proviso: a page that keeps
producing fresh items long enough and converges after round 240 ends at
the ceiling.) -/
theorem c1_convergence_amended :
    ∀ (page : Nat → List RawItem) (limit : Option Nat) (K : Nat),
    K + 20 ≤ 260 →
    (∀ i, K ≤ i → ∀ it ∈ page i, itemKey it ∈ keysUpTo page i) →
    (collectReviews page limit).exit ≠ ExitKind.ceiling ∧
    (collectReviews page limit).rounds ≤ K + 20 := by
  intro page limit K hK hno
  exact collectAux_reach page limit K hK (no_new_since page K hno) 260 0 [] [] 0
    rfl (Nat.zero_le K) (by omega)
    (fun k hk => absurd hk (by simp [keysUpTo, itemsUpTo]))

/-- C1 witness: a page that never yields anything converges immediately. -/
theorem c1_witness :
    (collectReviews (fun _ => []) Option.none).exit ≠ ExitKind.ceiling ∧
    (collectReviews (fun _ => []) Option.none).rounds ≤ 0 + 20 :=
  c1_convergence_amended (fun _ => []) Option.none 0 (by omega)
    (fun _ _ it hit => absurd hit (List.not_mem_nil it))

/-- One fresh raw item per producing round of the slow counterexample page. -/
def c1Item (i : Nat) : RawItem :=
  ⟨Option.some (toString i), Option.none, Option.none, Option.none⟩

/-- A page that yields a fresh item every 19 rounds up to round 228, one
last fresh item at round 240 and nothing afterwards: it converges after
round 240 yet never accumulates 20 consecutive empty rounds before the
iteration ceiling. -/
def c1Page : Nat → List RawItem := fun i =>
  if i % 19 = 0 ∧ i ≤ 228 then [c1Item i]
  else if i = 240 then [c1Item 240] else []

/-- C1 counterexample to the claim as stated: the page above stops
yielding items entirely after round 240 (so no later round yields any new
unique item), yet the collector terminates through the hard iteration
ceiling. -/
theorem c1_counterexample :
    (∀ i, 240 < i → c1Page i = [])
    ∧ (collectReviews c1Page Option.none).exit = ExitKind.ceiling := by
  constructor
  · intro i hi
    unfold c1Page
    rw [if_neg (by omega), if_neg (by omega)]
  · decide

theorem finalPassAux_len (limit : Option Nat) (conv : RawItem → Review) :
    ∀ (items : List RawItem) (revs : List Review) (seen : List String),
    (finalPassAux limit conv items revs seen).length ≤
      revs.length + items.length := by
  intro items
  induction items with
  | nil => intro revs seen; simp [finalPassAux]
  | cons it rest ih =>
    intro revs seen
    show (if reviewKey (conv it) ∈ seen then finalPassAux limit conv rest revs seen
      else if limitReached limit (revs ++ [conv it]).length then revs ++ [conv it]
      else finalPassAux limit conv rest (revs ++ [conv it])
        (reviewKey (conv it) :: seen)).length ≤ revs.length + (rest.length + 1)
    by_cases hk : reviewKey (conv it) ∈ seen
    · rw [if_pos hk]
      have := ih revs seen
      omega
    · rw [if_neg hk]
      by_cases hlr : limitReached limit (revs ++ [conv it]).length = true
      · rw [if_pos hlr]
        simp only [List.length_append, List.length_cons, List.length_nil]
        omega
      · rw [if_neg hlr]
        have := ih (revs ++ [conv it]) (reviewKey (conv it) :: seen)
        simp only [List.length_append, List.length_cons, List.length_nil] at this
        omega

theorem finalPassAux_nodup (limit : Option Nat) (conv : RawItem → Review) :
    ∀ (items : List RawItem) (revs : List Review) (seen : List String),
    ((revs.map reviewKey).Nodup) → (∀ r ∈ revs, reviewKey r ∈ seen) →
    ((finalPassAux limit conv items revs seen).map reviewKey).Nodup := by
  intro items
  induction items with
  | nil => intro revs seen hnd _; exact hnd
  | cons it rest ih =>
    intro revs seen hnd hsub
    show ((if reviewKey (conv it) ∈ seen then
        finalPassAux limit conv rest revs seen
      else if limitReached limit (revs ++ [conv it]).length then revs ++ [conv it]
      else finalPassAux limit conv rest (revs ++ [conv it])
        (reviewKey (conv it) :: seen)).map reviewKey).Nodup
    by_cases hk : reviewKey (conv it) ∈ seen
    · rw [if_pos hk]
      exact ih revs seen hnd hsub
    · rw [if_neg hk]
      have hnodup1 : ((revs ++ [conv it]).map reviewKey).Nodup := by
        rw [List.map_append, List.map_singleton, List.nodup_append]
        refine ⟨hnd, List.nodup_singleton _, ?_⟩
        intro k hk1 hk2
        rcases List.mem_map.mp hk1 with ⟨r, hr, hrk⟩
        rcases List.mem_singleton.mp hk2 with rfl
        exact hk (hrk ▸ hsub r hr)
      by_cases hlr : limitReached limit (revs ++ [conv it]).length = true
      · rw [if_pos hlr]
        exact hnodup1
      · rw [if_neg hlr]
        refine ih (revs ++ [conv it]) (reviewKey (conv it) :: seen) hnodup1 ?_
        intro r hr
        rcases List.mem_append.mp hr with h1 | h1
        · exact List.mem_cons_of_mem _ (hsub r h1)
        · rcases List.mem_singleton.mp h1 with rfl
          exact List.mem_cons_self _ _

/-- C2.  The collector output is exactly the first-occurrence filter of a
prefix of the round-concatenated extraction stream (so two raw items with
identical (author, date-text, rating, text) tuples - which are equal
records, hence share a key - contribute at most one entry, in first-seen
discovery order, regardless of the producing round), its keys are
pairwise distinct, and the final review list of the pipeline likewise
contains no two records with the same review key. -/
theorem c2_dedup_first_seen :
    ∀ (page : Nat → List RawItem) (limit : Option Nat) (url : String)
      (oid : Option String) (fp : String → Option PyDateTime) (now : PyDateTime),
    (∃ p, p <+: itemsUpTo page 260 ∧
      (collectReviews page limit).out = (dedupScan p [] []).1)
    ∧ ((collectReviews page limit).out.map itemKey).Nodup
    ∧ ((scrapePipeline page limit url oid fp now).map reviewKey).Nodup := by
  intro page limit url oid fp now
  rcases collect_prefix page limit with ⟨p, hpre, hout, _⟩
  refine ⟨⟨p, hpre, hout⟩, ?_, ?_⟩
  · rw [hout]
    exact dedupScan_nodup p [] [] (by simp) (by simp)
  · exact finalPassAux_nodup limit (toReview url oid fp now)
      (collectReviews page limit).out [] [] (by simp) (by simp)

/-- C6.  With a configured cap N, the collector raw-item list has length
at most N, the final review list of the pipeline has length at most N,
and the merge step returns immediately - through the early cap return,
processing no further extracted items of the round - as soon as the
accumulator reaches N. -/
theorem c6_cap_enforcement :
    ∀ (page : Nat → List RawItem) (N : Nat) (url : String) (oid : Option String)
      (fp : String → Option PyDateTime) (now : PyDateTime),
    (collectReviews page (Option.some N)).out.length ≤ N
    ∧ (scrapePipeline page (Option.some N) url oid fp now).length ≤ N
    ∧ (∀ (it : RawItem) (rest out : List RawItem) (seen : List String) (n : Nat),
        itemKey it ∉ seen → N ≤ out.length + 1 →
        mergeItems (Option.some N) (it :: rest) out seen n =
          Sum.inl ((out ++ [it]).take N)) := by
  intro page N url oid fp now
  have hlen : (collectReviews page (Option.some N)).out.length ≤ N := by
    rcases collect_prefix page (Option.some N) with ⟨p, _, _, hcap⟩
    exact hcap N rfl
  refine ⟨hlen, ?_, ?_⟩
  · have h1 := finalPassAux_len (Option.some N) (toReview url oid fp now)
      (collectReviews page (Option.some N)).out [] []
    show (finalPassAux (Option.some N) (toReview url oid fp now)
      (collectReviews page (Option.some N)).out [] []).length ≤ N
    simp only [List.length_nil, Nat.zero_add] at h1
    omega
  · intro it rest out seen n hk hN
    rw [mergeItems_cons_add (Option.some N) it rest out seen n hk]
    rw [if_pos (by simp [limitReached]; omega)]
    rfl

/-- C6 witness: the immediate cap return at cap 1 on a singleton round,
and the two bounds for a concrete page. -/
theorem c6_witness :
    mergeItems (Option.some 1)
        [⟨Option.none, Option.none, Option.none, Option.none⟩] [] [] 0 =
      Sum.inl (([] ++ [(⟨Option.none, Option.none, Option.none,
        Option.none⟩ : RawItem)]).take 1)
    ∧ (collectReviews c10Page (Option.some 1)).out.length ≤ 1 :=
  ⟨(c6_cap_enforcement (fun _ => []) 1 "u" Option.none fpNone nowJun10).2.2
      ⟨Option.none, Option.none, Option.none, Option.none⟩ [] [] [] 0
      (by decide) (by decide),
   (c6_cap_enforcement c10Page 1 "u" Option.none fpNone nowJun10).1⟩

end ReviewParser








